import Mathlib

/-!
# Verification of the `badc` lexical front end

A shallow embedding of the span-tracking source context (`src/bad/source/context.rs`),
the logos-generated tokenizer (`src/bad/source/lex.rs`), the alternate lexer in
`src/bad/source/lib.rs`, and the duplicated context in `src/bad/source/ast.rs`.

Modelling conventions:
* The source text is a `List Char` (one entry per Unicode codepoint, mirroring
  Rust's `str::chars()`).  Offsets count codepoints.  Every scanning rule of the
  tokenizer matches ASCII characters only, so on every input that lexes without
  error the codepoint offsets coincide with Rust's byte offsets; and
  `advance_cursor` in the source iterates `.chars()` of the consumed slice, which
  is exactly a fold over this representation.
* Rust `usize`/`u32` counters become `Nat`; the source's overflow behavior
  (a panic via `try_into().expect(..)`) is unreachable for the quantities
  involved here and is not modelled.
* `panic!` / process aborts become `Except.error` carrying the formatted
  diagnostic text; `{:?}` (Debug) formatting of a path renders it quoted, which
  we model for plain paths by surrounding double quotes.
* The bump arena of the context only performs allocation and carries no
  observable state; it is omitted.
-/

namespace Badc

/-- `CommentStyle` from lex.rs: discriminates `//` and `/* */` comments. -/
inductive CommentStyle
  | Line
  | Block
  deriving Repr, DecidableEq

/-- `LineWhitespaceStyle` from lex.rs: which newline sequence was matched. -/
inductive LineWhitespaceStyle
  | CarriageReturn
  | LineFeed
  | CarriageReturnLineFeed
  deriving Repr, DecidableEq

/-- `TokenName` from lex.rs (the `#[derive(Logos)]` enum), one constructor per
variant, in declaration order. -/
inductive TokenName
  | Identifier
  | Number
  | StringLiteral
  | If
  | Auto
  | Extrn
  | Case
  | While
  | Switch
  | Goto
  | Return
  | LeftParen
  | RightParen
  | LeftBrace
  | RightBrace
  | Semicolon
  | Comma
  | SingleQuote
  | Quote
  | Plus
  | PlusPlus
  | Minus
  | MinusMinus
  | Exclamation
  | Ampersand
  | VerticalBar
  | Equals
  | EqualsEquals
  | ExclamationEquals
  | LessThan
  | LessThanLessThan
  | LessThanEquals
  | GreaterThan
  | GreaterThanGreaterThan
  | GreaterThanEquals
  | Percent
  | Asterisks
  | ForwardSlash
  | Comment (style : CommentStyle)
  | Whitespace
  | LineWhitespace (style : LineWhitespaceStyle)
  | Error
  deriving Repr, DecidableEq

/-- `Mark` from context.rs: a snapshot of the cursor `{offset, line, col}`. -/
structure Mark where
  offset : Nat
  line : Nat
  col : Nat
  deriving Repr, DecidableEq

/-- `RawSpan` from context.rs: a byte range plus the line/column of its start. -/
structure RawSpan where
  range : Nat × Nat
  line : Nat
  col : Nat
  deriving Repr, DecidableEq

/-- `SpanState` from context.rs: the span table plus the scanning cursor. -/
structure SpanState where
  raw_spans : List RawSpan
  cursor : Mark
  deriving Repr, DecidableEq

/-- `Context` from context.rs (the bump arena is omitted, see the header). -/
structure Context where
  path : String
  source : List Char
  spans : SpanState
  deriving Repr, DecidableEq

/-- `Context::new` from context.rs: fresh span table, cursor at the origin
(`SpanState: Default`). -/
def Context.new (path : String) (source : List Char) : Context :=
  ⟨path, source, ⟨[], ⟨0, 0, 0⟩⟩⟩

/-- `Context::offset` from context.rs. -/
def Context.offset (ctx : Context) : Nat :=
  ctx.spans.cursor.offset

/-- `Context::column` from context.rs. -/
def Context.column (ctx : Context) : Nat :=
  ctx.spans.cursor.col

/-- `Context::line` from context.rs. -/
def Context.line (ctx : Context) : Nat :=
  ctx.spans.cursor.line

/-- `Context::human_column` from context.rs. -/
def Context.human_column (ctx : Context) : Nat :=
  ctx.column + 1

/-- `Context::human_line` from context.rs. -/
def Context.human_line (ctx : Context) : Nat :=
  ctx.line + 1

/-- `Context::unread` from context.rs: the suffix of the source after the
cursor. -/
def Context.unread (ctx : Context) : List Char :=
  ctx.source.drop ctx.spans.cursor.offset

/-- `Context::mark` from context.rs. -/
def Context.mark (ctx : Context) : Mark :=
  ctx.spans.cursor

/-- `Context::span` from context.rs: appends a `RawSpan` running from the mark
to the cursor's current offset and returns its index (`raw_spans.len() - 1`)
as the span identifier. -/
def Context.span (ctx : Context) (start : Mark) : Context × Nat :=
  let e := ctx.spans.cursor.offset
  let raws := ctx.spans.raw_spans ++ [⟨(start.offset, e), start.line, start.col⟩]
  ({ ctx with spans := { ctx.spans with raw_spans := raws } }, raws.length - 1)

/-- The per-character body of the `for c in ... .chars()` loop inside
`Context::advance_cursor`: `'\n'` bumps the line and resets the column, any
other codepoint bumps the column. -/
def advanceLineCol (cursor : Mark) (c : Char) : Mark :=
  if c = '\n' then { cursor with line := cursor.line + 1, col := 0 }
  else { cursor with col := cursor.col + 1 }

/-- `Context::advance_cursor` from context.rs: scans the next `len` codepoints
for newlines to update line/column, then adds `len` to the offset.  (The Rust
code panics when `len` exceeds the unread length; the lexer only ever passes
lengths of matches inside the unread suffix, which we prove below.) -/
def Context.advance_cursor (ctx : Context) (len : Nat) : Context :=
  let offset := ctx.spans.cursor.offset
  let consumed := (ctx.source.drop offset).take len
  let cursor := consumed.foldl advanceLineCol ctx.spans.cursor
  { ctx with spans := { ctx.spans with cursor := { cursor with offset := offset + len } } }

/-- `Context::next_span` from context.rs: mark, advance, span. -/
def Context.next_span (ctx : Context) (len : Nat) : Context × Nat :=
  let start := ctx.mark
  let ctx1 := ctx.advance_cursor len
  ctx1.span start

/-- The default `RawSpan` used to totalize span lookup (the Rust code indexes
`raw_spans[id]` and panics when out of bounds; every span produced by the API
is in bounds, which the theorems below establish). -/
def RawSpan.junk : RawSpan :=
  ⟨(0, 0), 0, 0⟩

/-- `source[start..end]` as a codepoint slice. -/
def substring (source : List Char) (a b : Nat) : List Char :=
  (source.drop a).take (b - a)

/-- `Span::range` from context.rs. -/
def Span.range (s : Nat) (ctx : Context) : Nat × Nat :=
  (ctx.spans.raw_spans.getD s RawSpan.junk).range

/-- `Span::text` from context.rs: `&ctx.source[start..end]`. -/
def Span.text (s : Nat) (ctx : Context) : List Char :=
  let r := Span.range s ctx
  substring ctx.source r.1 r.2

/-- `Span::coords` from context.rs: the zero-indexed line/column the span
starts at. -/
def Span.coords (s : Nat) (ctx : Context) : Nat × Nat :=
  let raw := ctx.spans.raw_spans.getD s RawSpan.junk
  (raw.line, raw.col)

/-! ## The scanning rules of lex.rs

Each `#[token]`/`#[regex]` attribute becomes a function computing the longest
length that rule can match at the head of the input (`none` when it cannot
match).  logos compiles the rules into one maximal-munch automaton: the rule
with the longest match wins, and ties at equal length are broken by the rule's
priority (2 per literal character, 1 per character class, repetitions count
their minimum number of iterations). -/

/-- `[a-zA-Z_]`, the leading class of the `Identifier` regex. -/
def isIdentStart (c : Char) : Bool :=
  (('a' ≤ c) && (c ≤ 'z')) || (('A' ≤ c) && (c ≤ 'Z')) || (c = '_')

/-- `[0-9]`, the class of the `Number` regex. -/
def isDigitChar (c : Char) : Bool :=
  ('0' ≤ c) && (c ≤ '9')

/-- `[a-zA-Z0-9_]`, the continuation class of the `Identifier` regex. -/
def isIdentCont (c : Char) : Bool :=
  isIdentStart c || isDigitChar c

/-- Length of the longest prefix all of whose characters satisfy `p`. -/
def countWhile (p : Char → Bool) : List Char → Nat
  | [] => 0
  | c :: t => if p c then countWhile p t + 1 else 0

/-- Longest match of `#[regex(r"[a-zA-Z_][a-zA-Z0-9_]*")]` (`Identifier`). -/
def identMatch : List Char → Option Nat
  | [] => none
  | c :: t => if isIdentStart c then some (countWhile isIdentCont t + 1) else none

/-- Longest match of `#[regex(r"[0-9]+")]` (`Number`). -/
def numberMatch : List Char → Option Nat
  | [] => none
  | c :: t => if isDigitChar c then some (countWhile isDigitChar t + 1) else none

/-- Longest match, after the opening quote, of the remainder of the
`StringLiteral` regex `'[^'\\]*(?:\\.[^'\\]*)*'`: runs of non-quote
non-backslash characters and backslash escapes (`.` does not match `'\n'`),
up to and including the first unescaped closing quote. -/
def stringLitTail : List Char → Option Nat
  | [] => none
  | [c] => if c = '\'' then some 1 else none
  | c :: d :: t =>
    if c = '\'' then some 1
    else if c = '\\' then (if d = '\n' then none else (stringLitTail t).map (· + 2))
    else (stringLitTail (d :: t)).map (· + 1)

/-- Longest match of `#[regex(r"'[^'\\]*(?:\\.[^'\\]*)*'")]` (`StringLiteral`). -/
def stringLitMatch : List Char → Option Nat
  | [] => none
  | c :: t => if c = '\'' then (stringLitTail t).map (· + 1) else none

/-- Longest match of a fixed `#[token(..)]` literal: the literal's length when
it prefixes the input. -/
def litMatch (lit : List Char) (s : List Char) : Option Nat :=
  if lit.isPrefixOf s then some lit.length else none

/-- Longest match of `#[regex(r"//[^\r\n]*")]` (`Comment(Line)`). -/
def lineCommentMatch : List Char → Option Nat
  | [] => none
  | c :: t =>
    if c = '/' ∧ t.head? = some '/' then
      some (countWhile (fun d => d ≠ '\r' && d ≠ '\n') (t.drop 1) + 2)
    else none

/-- Length, counted from the head, up to and including the first `*/` pair in
the list (`none` when no `*/` occurs). -/
def closeLen : List Char → Option Nat
  | [] => none
  | c :: t => if c = '*' ∧ t.head? = some '/' then some 2 else (closeLen t).map (· + 1)

/-- Longest match of `#[regex(r"/\*([^*]|\**[^*/])*\*+/")]` (`Comment(Block)`):
the inner alternation cannot contain `*/`, and the closer `\*+/` consumes the
star run ending at the first `*/`, so the longest match runs to the end of the
first `*/` after the opener. -/
def blockCommentMatch : List Char → Option Nat
  | [] => none
  | c :: t =>
    if c = '/' ∧ t.head? = some '*' then (closeLen (t.drop 1)).map (· + 2) else none

/-- Longest match of `#[regex(r"[ \t\f]+")]` (`Whitespace`). -/
def whitespaceMatch (s : List Char) : Option Nat :=
  match s with
  | [] => none
  | c :: t =>
    if c = ' ' || c = '\t' || c = '\x0c' then
      some (countWhile (fun d => d = ' ' || d = '\t' || d = '\x0c') t + 1)
    else none

/-- Longest match of `#[regex(r"(\r)?(\n)?")]` (`LineWhitespace`).  The regex
is nullable, but logos never emits an empty token, so only the three nonempty
shapes `\r\n`, `\r`, `\n` ever match. -/
def lineWsMatch : List Char → Option Nat
  | [] => none
  | c :: t =>
    if c = '\r' then (if t.head? = some '\n' then some 2 else some 1)
    else if c = '\n' then some 1
    else none

/-- Length of the longest prefix that contains no `*/` pair (stopping just
after the `*` of the first `*/`, which the following `/` cannot join). -/
def noCloseTake : List Char → Nat
  | [] => 0
  | c :: t => if c = '*' ∧ t.head? = some '/' then 1 else noCloseTake t + 1

/-- Longest match of the error-recovery pattern
`#[regex(r"/\*([^*]|\*+[^*/])*\*?")]` attached to `Error`: `/*`, then the
longest `*/`-free stretch whose trailing star run is trimmed to at most one
star (the inner alternation cannot end inside a star run, and `\*?` supplies
at most one more star). -/
def errorRegexMatch : List Char → Option Nat
  | [] => none
  | c :: t =>
    if c = '/' ∧ t.head? = some '*' then
      let u := t.drop 1
      let m := noCloseTake u
      let r := countWhile (fun d => d = '*') (u.take m).reverse
      some ((m - r) + min r 1 + 2)
    else none

/-- A scanning-rule candidate at the current position: the token it would
produce, the length it matches, and the rule's logos priority. -/
structure Cand where
  name : TokenName
  len : Nat
  prio : Nat
  deriving Repr, DecidableEq

/-- One scanning rule: its longest-match function, its logos priority, and the
token constructor (a function of the matched slice, because the
`LineWhitespace` callback inspects `lex.slice()`). -/
structure LexRule where
  matchLen : List Char → Option Nat
  prio : Nat
  tokOf : List Char → TokenName

/-- The fixed `#[token(..)]` literals of lex.rs in declaration order (keywords,
then punctuators), with their token names. -/
def literalToks : List (List Char × TokenName) :=
  [ ("if".toList, .If), ("auto".toList, .Auto), ("extrn".toList, .Extrn),
    ("case".toList, .Case), ("while".toList, .While), ("switch".toList, .Switch),
    ("goto".toList, .Goto), ("return".toList, .Return),
    ("(".toList, .LeftParen), (")".toList, .RightParen),
    ("\x7b".toList, .LeftBrace), ("\x7d".toList, .RightBrace),
    (";".toList, .Semicolon), (",".toList, .Comma),
    ("'".toList, .SingleQuote), ("\"".toList, .Quote),
    ("+".toList, .Plus), ("++".toList, .PlusPlus),
    ("-".toList, .Minus), ("--".toList, .MinusMinus),
    ("!".toList, .Exclamation), ("&".toList, .Ampersand),
    ("|".toList, .VerticalBar),
    ("=".toList, .Equals), ("==".toList, .EqualsEquals),
    ("!=".toList, .ExclamationEquals),
    ("<".toList, .LessThan), ("<<".toList, .LessThanLessThan),
    ("<=".toList, .LessThanEquals),
    (">".toList, .GreaterThan), (">>".toList, .GreaterThanGreaterThan),
    (">=".toList, .GreaterThanEquals),
    ("%".toList, .Percent), ("*".toList, .Asterisks),
    ("/".toList, .ForwardSlash) ]

/-- The rule a fixed literal token induces (priority 2 per literal char). -/
def litRule (lt : List Char × TokenName) : LexRule :=
  ⟨litMatch lt.1, 2 * lt.1.length, fun _ => lt.2⟩

/-- The full rule table of the `TokenName` logos enum, in declaration order. -/
def rules : List LexRule :=
  [ ⟨identMatch, 1, fun _ => .Identifier⟩,
    ⟨numberMatch, 1, fun _ => .Number⟩,
    ⟨stringLitMatch, 4, fun _ => .StringLiteral⟩ ]
  ++ literalToks.map litRule
  ++ [ ⟨lineCommentMatch, 4, fun _ => .Comment .Line⟩,
       ⟨blockCommentMatch, 8, fun _ => .Comment .Block⟩,
       ⟨whitespaceMatch, 1, fun _ => .Whitespace⟩,
       ⟨lineWsMatch, 0, fun sl =>
         match sl with
         | ['\r', '\n'] => .LineWhitespace .CarriageReturnLineFeed
         | ['\r'] => .LineWhitespace .CarriageReturn
         | ['\n'] => .LineWhitespace .LineFeed
         | _ => .Error⟩,
       ⟨errorRegexMatch, 4, fun _ => .Error⟩ ]

/-- All rules that match at the head of `s`, as candidates. -/
def candidates (s : List Char) : List Cand :=
  rules.filterMap fun r => (r.matchLen s).map fun len => ⟨r.tokOf (s.take len), len, r.prio⟩

/-- Maximal-munch selection: a later candidate replaces the current best only
when it matches strictly longer, or equally long with strictly higher
priority (logos's disambiguation; exact ties are a logos compile error and do
not arise for this rule set). -/
def pickFrom (best : Cand) : List Cand → Cand
  | [] => best
  | c :: t => pickFrom (if best.len < c.len ∨ (c.len = best.len ∧ best.prio < c.prio) then c else best) t

/-- The winning candidate, when any rule matches. -/
def pickBest : List Cand → Option Cand
  | [] => none
  | c :: t => some (pickFrom c t)

/-- One scanning step at the head of `s`: the emitted token name and matched
length.  `none` at end of input.  When no rule matches the head (possible only
for a nonempty input), logos emits an `Error` token over the unmatched input;
it advances by one character there (no rule of this table makes partial
automaton progress on such input). -/
def nextToken (s : List Char) : Option (TokenName × Nat) :=
  match s with
  | [] => none
  | _ :: _ =>
    match pickBest (candidates s) with
    | some c => some (c.name, c.len)
    | none => some (.Error, 1)

/-! ## The lex driver of lex.rs -/

/-- `Token` from lex.rs: a token name plus the identifier of its span. -/
structure Token where
  name : TokenName
  span : Nat
  deriving Repr, DecidableEq

/-- `TokenList` from lex.rs: the produced tokens together with the context
whose table resolves their spans. -/
structure TokenList where
  tokens : List Token
  context : Context
  deriving Repr, DecidableEq

/-- `CompilationConfiguration` from state.rs, restricted to the fields the
lexer reads.  (The input/output handles, verbosity levels and `print_ast` only
drive I/O, which has no effect on the returned token list.) -/
structure CompilationConfiguration where
  print_tokens : Bool
  print_ast : Bool
  deriving Repr, DecidableEq

/-- The diagnostic printed by lex.rs before `panic!` on an `Error` match:
`eprintln!("{:?}[{:?},{:?}] - Error {}\n\tunrecognized input text during
scanning/lexing of sequence '{}'", path, human_line, human_column,
Error::UnrecognizedToken, slice)`.  `{:?}` on the path renders it quoted;
`Error::UnrecognizedToken` displays as `B1-0000 - Unrecognized token`. -/
def lexAbortMessage (path : String) (hline hcol : Nat) (slice : List Char) : String :=
  "\"" ++ path ++ "\"[" ++ toString hline ++ "," ++ toString hcol ++
    "] - Error B1-0000 - Unrecognized token\n\tunrecognized input text during scanning/lexing of sequence '"
    ++ slice.asString ++ "'"

/-- The scanning loop of `lex` in lex.rs.  Each logos match of length `len`
starts where the previous one ended, so the cursor offset (advanced by
`next_span(len)` per token) always equals the start of the current match; the
loop therefore scans the unread suffix.  An `Error` match prints the
diagnostic and panics (`Except.error`); otherwise `next_span` records the span
and the token is appended.  `fuel` bounds the iteration count; `lex` passes
more fuel than the source length, which the theorems show is enough. -/
def lexGo (cfg : CompilationConfiguration) : Nat → Context → Except String (List Token × Context)
  | 0, ctx => .ok ([], ctx)
  | fuel + 1, ctx =>
    match nextToken ctx.unread with
    | none => .ok ([], ctx)
    | some (name, len) =>
      if name = TokenName.Error then
        .error (lexAbortMessage ctx.path ctx.human_line ctx.human_column (ctx.unread.take len))
      else
        match lexGo cfg fuel (ctx.next_span len).1 with
        | .ok (toks, ctxF) => .ok (⟨name, (ctx.next_span len).2⟩ :: toks, ctxF)
        | .error e => .error e

/-- `lex` from lex.rs: builds a fresh context over the input and runs the
scanning loop.  The `config.print_tokens` rendering writes to standard output
only and does not affect the returned list. -/
def lex (input_path : String) (input_source : List Char)
    (cfg : CompilationConfiguration) : Except String TokenList :=
  match lexGo cfg (input_source.length + 1) (Context.new input_path input_source) with
  | .ok (toks, ctx) => .ok ⟨toks, ctx⟩
  | .error e => .error e

/-! ## The alternate lex driver of lib.rs -/

/-- The diagnostic inside the `panic!` of `lex` in lib.rs (note: different
bracketing and wording from the lex.rs message). -/
def libLexAbortMessage (path : String) (hline hcol : Nat) (slice : List Char) : String :=
  "\"" ++ path ++ "\":(" ++ toString hline ++ "," ++ toString hcol ++
    ") - Error B00000\n\tunrecognized sequence of text during scanning/lexing of sequence '"
    ++ slice.asString ++ "'"

/-- The per-token span bookkeeping of the lib.rs loop: unlike lex.rs, it calls
`advance_cursor(progress)` FIRST and only then takes the mark and closes the
span from it, so every recorded span starts and ends at the offset just past
the lexeme. -/
def libNextSpan (ctx : Context) (len : Nat) : Context × Nat :=
  (ctx.advance_cursor len).span (ctx.advance_cursor len).mark

/-- The scanning loop of `lex` in lib.rs. -/
def libLexGo (cfg : CompilationConfiguration) : Nat → Context → Except String (List Token × Context)
  | 0, ctx => .ok ([], ctx)
  | fuel + 1, ctx =>
    match nextToken ctx.unread with
    | none => .ok ([], ctx)
    | some (name, len) =>
      if name = TokenName.Error then
        .error (libLexAbortMessage ctx.path ctx.human_line ctx.human_column (ctx.unread.take len))
      else
        match libLexGo cfg fuel (libNextSpan ctx len).1 with
        | .ok (toks, ctxF) => .ok (⟨name, (libNextSpan ctx len).2⟩ :: toks, ctxF)
        | .error e => .error e

/-- `lex` from lib.rs. -/
def libLex (input_path : String) (input_source : List Char)
    (cfg : CompilationConfiguration) : Except String TokenList :=
  match libLexGo cfg (input_source.length + 1) (Context.new input_path input_source) with
  | .ok (toks, ctx) => .ok ⟨toks, ctx⟩
  | .error e => .error e

/-! ## The duplicated context of ast.rs

ast.rs carries its own copies of `Span`, `Mark`, `RawSpan`, `SpanState` and
`Context`, structurally identical to context.rs except for `Context::span`:
there the returned identifier is `raw_spans.len()` taken AFTER the push,
instead of `len() - 1`. -/

/-- `Context::span` from ast.rs: appends the same `RawSpan` as the context.rs
version, but returns `raw_spans.len()` computed after the push as the span
identifier. -/
def astSpan (ctx : Context) (start : Mark) : Context × Nat :=
  let e := ctx.spans.cursor.offset
  let raws := ctx.spans.raw_spans ++ [⟨(start.offset, e), start.line, start.col⟩]
  ({ ctx with spans := { ctx.spans with raw_spans := raws } }, raws.length)

/-- A scanning rule is well behaved when every match has positive length and
stays inside the input. -/
def RuleOK (r : LexRule) : Prop :=
  ∀ s n, r.matchLen s = some n → 0 < n ∧ n ≤ s.length


/-- `chainFrom o l e`: the raw spans in `l` tile the offsets from `o` to `e`:
each span starts where the previous one stopped, starts never exceed stops,
and the last stop is `e`. -/
def chainFrom (o : Nat) : List RawSpan → Nat → Prop
  | [], e => o = e
  | rs :: t, e => rs.range.1 = o ∧ o ≤ rs.range.2 ∧ chainFrom rs.range.2 t e


/-! ## Concrete artifacts used by the witnesses -/

/-- A configuration with both printing flags set, as `badc`'s command line
defaults them. -/
def cfg0 : CompilationConfiguration := ⟨true, true⟩

/-- The token list of `lex` on `"if(x)"`. -/
def tlIfParen : TokenList :=
  (lex "f" "if(x)".toList cfg0).toOption.getD ⟨[], Context.new "f" []⟩

/-- The token list of `lex` on `"a b"`. -/
def tlAB : TokenList :=
  (lex "f" "a b".toList cfg0).toOption.getD ⟨[], Context.new "f" []⟩

/-- The token list of `lex` on `"x y"`. -/
def tlXY : TokenList :=
  (lex "f" "x y".toList cfg0).toOption.getD ⟨[], Context.new "f" []⟩

/-- The token list of the lib.rs `lex` on `"ab"`. -/
def tlLibAB : TokenList :=
  (libLex "f" "ab".toList cfg0).toOption.getD ⟨[], Context.new "f" []⟩


/-- The error-message shape the spec claims for lexical errors
(`<path>:(<line+1>,<col+1>) - Error <code>` followed by newline, tab and the
fixed sentence), stated as a definition so it can be compared with the message
the code actually formats (`lexAbortMessage`). -/
def specLexAbortMessage (path : String) (hline hcol : Nat) (code : String)
    (slice : List Char) : String :=
  path ++ ":(" ++ toString hline ++ "," ++ toString hcol ++ ") - Error " ++ code ++
    "\n\tunrecognized input text during scanning/lexing of sequence '" ++ slice.asString ++ "'"


/-! ## Basic lemmas about the scanning rules -/

theorem countWhile_le (p : Char → Bool) : ∀ l : List Char, countWhile p l ≤ l.length
  | [] => Nat.le_refl _
  | c :: t => by
    unfold countWhile
    split
    · exact Nat.succ_le_succ (countWhile_le p t)
    · exact Nat.zero_le _

theorem identMatch_bounds {s : List Char} {n : Nat} (h : identMatch s = some n) :
    0 < n ∧ n ≤ s.length := by
  match s with
  | [] => simp [identMatch] at h
  | c :: t =>
    simp only [identMatch] at h
    split at h
    · cases h
      exact ⟨Nat.succ_pos _, by simpa using Nat.succ_le_succ (countWhile_le _ t)⟩
    · cases h

theorem numberMatch_bounds {s : List Char} {n : Nat} (h : numberMatch s = some n) :
    0 < n ∧ n ≤ s.length := by
  match s with
  | [] => simp [numberMatch] at h
  | c :: t =>
    simp only [numberMatch] at h
    split at h
    · cases h
      exact ⟨Nat.succ_pos _, by simpa using Nat.succ_le_succ (countWhile_le _ t)⟩
    · cases h

theorem stringLitTail_bounds : ∀ {l : List Char} {n : Nat},
    stringLitTail l = some n → 0 < n ∧ n ≤ l.length
  | [], n, h => by simp [stringLitTail] at h
  | [c], n, h => by
    simp only [stringLitTail] at h
    split at h
    · cases h; simp
    · cases h
  | c :: d :: t, n, h => by
    simp only [stringLitTail] at h
    split at h
    · cases h; simp
    · split at h
      · split at h
        · cases h
        · obtain ⟨m, h1, rfl⟩ := Option.map_eq_some'.mp h
          have := (stringLitTail_bounds h1).2
          exact ⟨by omega, by simp; omega⟩
      · obtain ⟨m, h1, rfl⟩ := Option.map_eq_some'.mp h
        have := (stringLitTail_bounds h1).2
        simp only [List.length_cons] at this ⊢
        omega

theorem stringLitMatch_bounds {s : List Char} {n : Nat} (h : stringLitMatch s = some n) :
    0 < n ∧ n ≤ s.length := by
  match s with
  | [] => simp [stringLitMatch] at h
  | c :: t =>
    simp only [stringLitMatch] at h
    split at h
    · obtain ⟨m, h1, rfl⟩ := Option.map_eq_some'.mp h
      have := (stringLitTail_bounds h1).2
      exact ⟨by omega, by simp; omega⟩
    · cases h

theorem litMatch_bounds {lit s : List Char} {n : Nat} (hne : lit ≠ [])
    (h : litMatch lit s = some n) : 0 < n ∧ n ≤ s.length := by
  simp only [litMatch] at h
  split at h
  · cases h
    rename_i hpre
    have hp : lit <+: s := by simpa [← List.isPrefixOf_iff_prefix] using hpre
    exact ⟨List.length_pos.mpr hne, hp.length_le⟩
  · cases h

theorem lineCommentMatch_bounds {s : List Char} {n : Nat}
    (h : lineCommentMatch s = some n) : 0 < n ∧ n ≤ s.length := by
  match s with
  | [] => simp [lineCommentMatch] at h
  | c :: t =>
    simp only [lineCommentMatch] at h
    split at h
    · cases h
      rename_i hc
      have ht : 1 ≤ t.length := by
        cases t with
        | nil => simp at hc
        | cons d t1 => simp
      have := countWhile_le (fun d => d ≠ '\r' && d ≠ '\n') (t.drop 1)
      simp only [List.length_drop] at this
      refine ⟨by omega, ?_⟩
      simp only [List.length_cons]
      omega
    · cases h

theorem closeLen_bounds : ∀ {l : List Char} {n : Nat},
    closeLen l = some n → 0 < n ∧ n ≤ l.length
  | [], n, h => by simp [closeLen] at h
  | c :: t, n, h => by
    simp only [closeLen] at h
    split at h
    · cases h
      rename_i hc
      have : 1 ≤ t.length := by
        cases t with
        | nil => simp at hc
        | cons d t1 => simp
      exact ⟨by omega, by simp; omega⟩
    · obtain ⟨m, h1, rfl⟩ := Option.map_eq_some'.mp h
      have := (closeLen_bounds h1).2
      exact ⟨by omega, by simp; omega⟩

theorem blockCommentMatch_bounds {s : List Char} {n : Nat}
    (h : blockCommentMatch s = some n) : 0 < n ∧ n ≤ s.length := by
  match s with
  | [] => simp [blockCommentMatch] at h
  | c :: t =>
    simp only [blockCommentMatch] at h
    split at h
    · obtain ⟨m, h1, rfl⟩ := Option.map_eq_some'.mp h
      rename_i hc
      have ht : 1 ≤ t.length := by
        cases t with
        | nil => simp at hc
        | cons d t1 => simp
      have := (closeLen_bounds h1).2
      simp only [List.length_drop] at this
      refine ⟨by omega, ?_⟩
      simp only [List.length_cons]
      omega
    · cases h

theorem whitespaceMatch_bounds {s : List Char} {n : Nat} (h : whitespaceMatch s = some n) :
    0 < n ∧ n ≤ s.length := by
  match s with
  | [] => simp [whitespaceMatch] at h
  | c :: t =>
    simp only [whitespaceMatch] at h
    split at h
    · cases h
      have := countWhile_le (fun d => d = ' ' || d = '\t' || d = '\x0c') t
      refine ⟨Nat.succ_pos _, ?_⟩
      simp only [List.length_cons]
      omega
    · cases h

theorem lineWsMatch_bounds {s : List Char} {n : Nat} (h : lineWsMatch s = some n) :
    0 < n ∧ n ≤ s.length := by
  match s with
  | [] => simp [lineWsMatch] at h
  | c :: t =>
    simp only [lineWsMatch] at h
    split at h
    · split at h
      · cases h
        rename_i hc
        have : 1 ≤ t.length := by
          cases t with
          | nil => simp at hc
          | cons d t1 => simp
        exact ⟨by omega, by simp; omega⟩
      · cases h; simp
    · split at h
      · cases h; simp
      · cases h

theorem noCloseTake_le : ∀ l : List Char, noCloseTake l ≤ l.length
  | [] => by simp [noCloseTake]
  | c :: t => by
    simp only [noCloseTake]
    split
    · simp
    · have := noCloseTake_le t
      simp
      omega

theorem errorRegexMatch_bounds {s : List Char} {n : Nat}
    (h : errorRegexMatch s = some n) : 0 < n ∧ n ≤ s.length := by
  match s with
  | [] => simp [errorRegexMatch] at h
  | c :: t =>
    simp only [errorRegexMatch] at h
    split at h
    · cases h
      rename_i hc
      have ht : 1 ≤ t.length := by
        cases t with
        | nil => simp at hc
        | cons d t1 => simp
      have hm := noCloseTake_le (t.drop 1)
      simp only [List.length_drop] at hm
      have hr := countWhile_le (fun d => d = '*')
        ((t.drop 1).take (noCloseTake (t.drop 1))).reverse
      simp only [List.length_reverse, List.length_take] at hr
      refine ⟨by omega, ?_⟩
      have hmin : min (countWhile (fun d => d = '*')
          ((t.drop 1).take (noCloseTake (t.drop 1))).reverse) 1 ≤ 1 := Nat.min_le_right _ _
      simp only [List.length_cons]
      omega
    · cases h

theorem literalToks_ne_nil : ∀ lt ∈ literalToks, lt.1 ≠ [] := by decide

theorem rules_ok : ∀ r ∈ rules, RuleOK r := by
  intro r hr
  simp only [rules, List.mem_append, List.mem_cons, List.mem_map,
    List.not_mem_nil, or_false] at hr
  rcases hr with ((rfl | rfl | rfl) | ⟨lt, hlt, rfl⟩) | (rfl | rfl | rfl | rfl | rfl)
  · exact fun s n h => identMatch_bounds h
  · exact fun s n h => numberMatch_bounds h
  · exact fun s n h => stringLitMatch_bounds h
  · exact fun s n h => litMatch_bounds (literalToks_ne_nil lt hlt) h
  · exact fun s n h => lineCommentMatch_bounds h
  · exact fun s n h => blockCommentMatch_bounds h
  · exact fun s n h => whitespaceMatch_bounds h
  · exact fun s n h => lineWsMatch_bounds h
  · exact fun s n h => errorRegexMatch_bounds h

theorem candidates_bounds {s : List Char} : ∀ c ∈ candidates s, 0 < c.len ∧ c.len ≤ s.length := by
  intro c hc
  simp only [candidates, List.mem_filterMap, Option.map_eq_some'] at hc
  obtain ⟨r, hr, n, hn, rfl⟩ := hc
  exact rules_ok r hr s n hn

theorem pickFrom_mem (b : Cand) : ∀ l : List Cand, pickFrom b l = b ∨ pickFrom b l ∈ l
  | [] => Or.inl rfl
  | c :: t => by
    rw [pickFrom]
    rcases pickFrom_mem (if b.len < c.len ∨ (c.len = b.len ∧ b.prio < c.prio) then c else b) t with
        h | h
    · rw [h]
      split
      · exact Or.inr (List.mem_cons_self _ _)
      · exact Or.inl rfl
    · exact Or.inr (List.mem_cons_of_mem _ h)

theorem pickBest_mem {l : List Cand} {c : Cand} (h : pickBest l = some c) : c ∈ l := by
  match l with
  | [] => cases h
  | b :: t =>
    rw [pickBest] at h
    cases h
    rcases pickFrom_mem b t with h | h
    · rw [h]; exact List.mem_cons_self _ _
    · exact List.mem_cons_of_mem _ h

/-- Every scanning step consumes at least one character and never more than
the remaining input. -/
theorem nextToken_bounds {s : List Char} {tn : TokenName} {len : Nat}
    (h : nextToken s = some (tn, len)) : 0 < len ∧ len ≤ s.length := by
  match s with
  | [] => cases h
  | c0 :: t0 =>
    rw [nextToken] at h
    match hp : pickBest (candidates (c0 :: t0)) with
    | some c =>
      rw [hp] at h
      cases h
      exact candidates_bounds c (pickBest_mem hp)
    | none =>
      rw [hp] at h
      cases h
      simp

/-! ## Evaluation of the context operations -/

theorem span_eval (ctx : Context) (start : Mark) :
    ctx.span start =
      ({ ctx with spans := { ctx.spans with
          raw_spans := ctx.spans.raw_spans ++
            [⟨(start.offset, ctx.spans.cursor.offset), start.line, start.col⟩] } },
        ctx.spans.raw_spans.length) := by
  simp [Context.span]

theorem advance_cursor_eval (ctx : Context) (len : Nat) :
    ctx.advance_cursor len =
      { ctx with spans := { ctx.spans with
          cursor := { ((ctx.source.drop ctx.spans.cursor.offset).take len).foldl
              advanceLineCol ctx.spans.cursor with
            offset := ctx.spans.cursor.offset + len } } } := rfl

theorem next_span_eval (ctx : Context) (len : Nat) :
    ctx.next_span len =
      ({ ctx with spans :=
          { raw_spans := ctx.spans.raw_spans ++
              [⟨(ctx.spans.cursor.offset, ctx.spans.cursor.offset + len),
                ctx.spans.cursor.line, ctx.spans.cursor.col⟩],
            cursor := { ((ctx.source.drop ctx.spans.cursor.offset).take len).foldl
                advanceLineCol ctx.spans.cursor with
              offset := ctx.spans.cursor.offset + len } } },
        ctx.spans.raw_spans.length) := by
  simp [Context.next_span, Context.mark, advance_cursor_eval, span_eval]

/-! ## The tiling predicate for span tables -/

theorem chainFrom_le {o e : Nat} : ∀ {l : List RawSpan}, chainFrom o l e → o ≤ e
  | [], h => Nat.le_of_eq h
  | rs :: t, h => Nat.le_trans h.2.1 (chainFrom_le h.2.2)

theorem chainFrom_bounds {o e : Nat} : ∀ {l : List RawSpan}, chainFrom o l e →
    ∀ rs ∈ l, o ≤ rs.range.1 ∧ rs.range.1 ≤ rs.range.2 ∧ rs.range.2 ≤ e := by
  intro l
  induction l generalizing o with
  | nil => intro _ rs hrs; cases hrs
  | cons hd t ih =>
    intro h rs hrs
    obtain ⟨h1, h2, h3⟩ := h
    rcases List.mem_cons.mp hrs with rfl | hmem
    · exact ⟨Nat.le_of_eq h1.symm, h1 ▸ h2, chainFrom_le h3⟩
    · obtain ⟨a, b, c⟩ := ih h3 rs hmem
      exact ⟨Nat.le_trans h2 a, b, c⟩

theorem chainFrom_pairwise {o e : Nat} : ∀ {l : List RawSpan}, chainFrom o l e →
    l.Pairwise (fun a b => a.range.1 ≤ b.range.1) := by
  intro l
  induction l generalizing o with
  | nil => intro _; exact List.Pairwise.nil
  | cons hd t ih =>
    intro h
    obtain ⟨h1, h2, h3⟩ := h
    refine List.Pairwise.cons ?_ (ih h3)
    intro rs hrs
    have := (chainFrom_bounds h3 rs hrs).1
    omega

theorem substring_self (src : List Char) : substring src 0 src.length = src := by
  simp [substring]

theorem substring_empty (src : List Char) (a : Nat) : substring src a a = [] := by
  simp [substring]

theorem substring_append (src : List Char) {a b c : Nat} (hab : a ≤ b) (hbc : b ≤ c) :
    substring src a b ++ substring src b c = substring src a c := by
  unfold substring
  have hca : c - a = (b - a) + (c - b) := by omega
  rw [hca, List.take_add, List.drop_drop]
  have hb : a + (b - a) = b := by omega
  rw [hb]

/-- The texts of a tiling span table concatenate to the covered slice of the
source. -/
theorem chainFrom_flatten {e : Nat} (src : List Char) :
    ∀ {l : List RawSpan} {o : Nat}, chainFrom o l e →
      (l.map fun rs => substring src rs.range.1 rs.range.2).flatten = substring src o e := by
  intro l
  induction l with
  | nil => intro o h; rw [h]; simp [substring_empty]
  | cons hd t ih =>
    intro o h
    obtain ⟨h1, h2, h3⟩ := h
    simp only [List.map_cons, List.flatten_cons]
    rw [ih h3, h1]
    exact substring_append src (h1 ▸ h2) (chainFrom_le h3)

theorem nextToken_eq_none {s : List Char} (h : nextToken s = none) : s = [] := by
  match s with
  | [] => rfl
  | c :: t =>
    rw [nextToken] at h
    match hp : pickBest (candidates (c :: t)) with
    | some c' => rw [hp] at h; cases h
    | none => rw [hp] at h; cases h

/-- The fundamental invariant of the lex.rs scanning loop: on success, the
whole unread suffix is consumed, the span table grows by exactly one record
per token, the new records tile the consumed offsets, and the `i`-th new token
holds the identifier of the `i`-th new record. -/
theorem lexGo_ok (cfg : CompilationConfiguration) :
    ∀ (fuel : Nat) (ctx : Context) (toks : List Token) (ctxF : Context),
      ctx.spans.cursor.offset ≤ ctx.source.length →
      ctx.source.length - ctx.spans.cursor.offset < fuel →
      lexGo cfg fuel ctx = .ok (toks, ctxF) →
      ctxF.source = ctx.source ∧ ctxF.path = ctx.path ∧
      ctxF.spans.cursor.offset = ctx.source.length ∧
      ∃ news : List RawSpan,
        ctxF.spans.raw_spans = ctx.spans.raw_spans ++ news ∧
        news.length = toks.length ∧
        chainFrom ctx.spans.cursor.offset news ctx.source.length ∧
        ∀ i (hi : i < toks.length), toks[i].span = ctx.spans.raw_spans.length + i := by
  intro fuel
  induction fuel with
  | zero => intro ctx toks ctxF hle hlt h; omega
  | succ fuel ih =>
    intro ctx toks ctxF hle hlt h
    simp only [lexGo] at h
    match hnt : nextToken ctx.unread with
    | none =>
      simp only [hnt] at h
      cases h
      have hun : ctx.unread = [] := nextToken_eq_none hnt
      have hoff : ctx.source.length ≤ ctx.spans.cursor.offset := by
        have := hun
        simp only [Context.unread, List.drop_eq_nil_iff_le] at this
        exact this
      refine ⟨rfl, rfl, by omega, [], by simp, rfl, ?_, by intro i hi; cases hi⟩
      show chainFrom ctx.spans.cursor.offset [] ctx.source.length
      unfold chainFrom
      omega
    | some (name, len) =>
      simp only [hnt] at h
      by_cases hname : name = TokenName.Error
      · rw [if_pos hname] at h; cases h
      · rw [if_neg hname] at h
        have hb := nextToken_bounds hnt
        have hunl : ctx.unread.length = ctx.source.length - ctx.spans.cursor.offset := by
          simp [Context.unread]
        cases hrec : lexGo cfg fuel (ctx.next_span len).1 with
        | error e => rw [hrec] at h; cases h
        | ok p =>
          obtain ⟨toks1, ctx1⟩ := p
          rw [hrec] at h
          cases h
          rw [next_span_eval] at hrec
          obtain ⟨hsrc, hpath, hoff, news1, hraws, hlen, hchain, hspan⟩ :=
            ih _ _ _ (by simp; omega) (by simp; omega) hrec
          simp only at hsrc hpath hoff hraws hchain hspan
          refine ⟨hsrc, hpath, by simpa using hoff, ?_⟩
          refine ⟨⟨(ctx.spans.cursor.offset, ctx.spans.cursor.offset + len),
              ctx.spans.cursor.line, ctx.spans.cursor.col⟩ :: news1, ?_, by simpa using hlen, ?_, ?_⟩
          · rw [hraws]
            simp
          · refine ⟨rfl, ?_, by simpa using hchain⟩
            simp only []
            omega
          · intro i hi
            match i with
            | 0 => simp [next_span_eval]
            | i + 1 =>
              simp only [List.getElem_cons_succ]
              have := hspan i (by simpa using hi)
              simp only [List.length_append, List.length_singleton] at this
              rw [this]
              omega

theorem libNextSpan_eval (ctx : Context) (len : Nat) :
    libNextSpan ctx len =
      ({ ctx with spans :=
          { raw_spans := ctx.spans.raw_spans ++
              [⟨(ctx.spans.cursor.offset + len, ctx.spans.cursor.offset + len),
                (((ctx.source.drop ctx.spans.cursor.offset).take len).foldl
                    advanceLineCol ctx.spans.cursor).line,
                (((ctx.source.drop ctx.spans.cursor.offset).take len).foldl
                    advanceLineCol ctx.spans.cursor).col⟩],
            cursor := { ((ctx.source.drop ctx.spans.cursor.offset).take len).foldl
                advanceLineCol ctx.spans.cursor with
              offset := ctx.spans.cursor.offset + len } } },
        ctx.spans.raw_spans.length) := by
  simp [libNextSpan, advance_cursor_eval, span_eval, Context.mark]

/-- The invariant of the lib.rs scanning loop: on success every new span
record is empty (its start equals its stop), because the cursor is advanced
past the lexeme before the mark is taken. -/
theorem libLexGo_ok (cfg : CompilationConfiguration) :
    ∀ (fuel : Nat) (ctx : Context) (toks : List Token) (ctxF : Context),
      libLexGo cfg fuel ctx = .ok (toks, ctxF) →
      ctxF.source = ctx.source ∧
      ∃ news : List RawSpan,
        ctxF.spans.raw_spans = ctx.spans.raw_spans ++ news ∧
        news.length = toks.length ∧
        (∀ rs ∈ news, rs.range.1 = rs.range.2) ∧
        ∀ i (hi : i < toks.length), toks[i].span = ctx.spans.raw_spans.length + i := by
  intro fuel
  induction fuel with
  | zero =>
    intro ctx toks ctxF h
    rw [libLexGo] at h
    cases h
    exact ⟨rfl, [], by simp, rfl, (by intro rs hrs; cases hrs), (by intro i hi; cases hi)⟩
  | succ fuel ih =>
    intro ctx toks ctxF h
    simp only [libLexGo] at h
    match hnt : nextToken ctx.unread with
    | none =>
      simp only [hnt] at h
      cases h
      exact ⟨rfl, [], by simp, rfl, (by intro rs hrs; cases hrs), (by intro i hi; cases hi)⟩
    | some (name, len) =>
      simp only [hnt] at h
      by_cases hname : name = TokenName.Error
      · rw [if_pos hname] at h; cases h
      · rw [if_neg hname] at h
        cases hrec : libLexGo cfg fuel (libNextSpan ctx len).1 with
        | error e => rw [hrec] at h; cases h
        | ok p =>
          obtain ⟨toks1, ctx1⟩ := p
          rw [hrec] at h
          cases h
          rw [libNextSpan_eval] at hrec
          obtain ⟨hsrc, news1, hraws, hlen, hempty, hspan⟩ := ih _ _ _ hrec
          simp only at hsrc hraws hspan
          refine ⟨hsrc, ⟨(ctx.spans.cursor.offset + len, ctx.spans.cursor.offset + len),
              (((ctx.source.drop ctx.spans.cursor.offset).take len).foldl
                  advanceLineCol ctx.spans.cursor).line,
              (((ctx.source.drop ctx.spans.cursor.offset).take len).foldl
                  advanceLineCol ctx.spans.cursor).col⟩ :: news1, ?_, by simpa using hlen, ?_, ?_⟩
          · rw [hraws]
            simp
          · intro rs hrs
            rcases List.mem_cons.mp hrs with rfl | hmem
            · rfl
            · exact hempty rs hmem
          · intro i hi
            match i with
            | 0 => simp [libNextSpan_eval]
            | i + 1 =>
              simp only [List.getElem_cons_succ]
              have := hspan i (by simpa using hi)
              simp only [List.length_append, List.length_singleton] at this
              rw [this]
              omega

theorem lex_ok_elim {path : String} {src : List Char} {cfg : CompilationConfiguration}
    {tl : TokenList} (h : lex path src cfg = Except.ok tl) :
    lexGo cfg (src.length + 1) (Context.new path src) = Except.ok (tl.tokens, tl.context) := by
  unfold lex at h
  cases hgo : lexGo cfg (src.length + 1) (Context.new path src) with
  | error e => rw [hgo] at h; cases h
  | ok p =>
    obtain ⟨toks, ctx⟩ := p
    rw [hgo] at h
    cases h
    rfl

/-- What a successful `lex` guarantees: the context keeps the source and path,
the cursor ends at the end of the input, the span table has one record per
token, the records tile `[0, len)`, and token `i` carries span identifier `i`. -/
theorem lex_ok_spec {path : String} {src : List Char} {cfg : CompilationConfiguration}
    {tl : TokenList} (h : lex path src cfg = Except.ok tl) :
    tl.context.source = src ∧ tl.context.path = path ∧
    tl.context.spans.cursor.offset = src.length ∧
    tl.context.spans.raw_spans.length = tl.tokens.length ∧
    chainFrom 0 tl.context.spans.raw_spans src.length ∧
    ∀ i (hi : i < tl.tokens.length), tl.tokens[i].span = i := by
  have hgo := lex_ok_elim h
  obtain ⟨hsrc, hpath, hoff, news, hraws, hlen, hchain, hspan⟩ :=
    lexGo_ok cfg _ _ _ _ (by simp [Context.new]) (by simp [Context.new]) hgo
  simp only [Context.new, List.nil_append] at hsrc hpath hoff hraws hchain hspan
  refine ⟨hsrc, hpath, by rw [hoff], ?_, ?_, ?_⟩
  · rw [hraws, hlen]
  · rw [hraws]
    exact hchain
  · intro i hi
    simpa using hspan i hi

theorem libLex_ok_elim {path : String} {src : List Char} {cfg : CompilationConfiguration}
    {tl : TokenList} (h : libLex path src cfg = Except.ok tl) :
    libLexGo cfg (src.length + 1) (Context.new path src) = Except.ok (tl.tokens, tl.context) := by
  unfold libLex at h
  cases hgo : libLexGo cfg (src.length + 1) (Context.new path src) with
  | error e => rw [hgo] at h; cases h
  | ok p =>
    obtain ⟨toks, ctx⟩ := p
    rw [hgo] at h
    cases h
    rfl

/-! ## C1 -/

/-- C1: for every `Span` produced during a lex (via `Context::next_span` /
`Context::span`), `text(s)` equals the source substring
`source[range(s).0 .. range(s).1]`, and `range(s).0 ≤ range(s).1 ≤ len(source)`
(the lower bound `0 ≤ range(s).0` is automatic for `Nat`). -/
theorem C1_round_trip (path : String) (src : List Char) (cfg : CompilationConfiguration)
    (tl : TokenList) (h : lex path src cfg = Except.ok tl) :
    ∀ sp, sp < tl.context.spans.raw_spans.length →
      (Span.range sp tl.context).1 ≤ (Span.range sp tl.context).2 ∧
      (Span.range sp tl.context).2 ≤ src.length ∧
      Span.text sp tl.context =
        substring src (Span.range sp tl.context).1 (Span.range sp tl.context).2 := by
  obtain ⟨hsrc, hpath, hoff, hlen, hchain, hspan⟩ := lex_ok_spec h
  intro sp hsp
  have hrange : Span.range sp tl.context = tl.context.spans.raw_spans[sp].range := by
    rw [Span.range, List.getD_eq_getElem _ _ hsp]
  obtain ⟨b1, b2, b3⟩ :=
    chainFrom_bounds hchain tl.context.spans.raw_spans[sp] (List.getElem_mem hsp)
  refine ⟨by rw [hrange]; exact b2, by rw [hrange]; exact b3, ?_⟩
  rw [Span.text, hsrc]

/-- C1 witness: the round trip at span 0 of lexing `"if(x)"`. -/
theorem C1_round_trip_witness :
    (Span.range 0 tlIfParen.context).1 ≤ (Span.range 0 tlIfParen.context).2 ∧
    (Span.range 0 tlIfParen.context).2 ≤ "if(x)".toList.length ∧
    Span.text 0 tlIfParen.context =
      substring "if(x)".toList (Span.range 0 tlIfParen.context).1
        (Span.range 0 tlIfParen.context).2 :=
  C1_round_trip "f" "if(x)".toList cfg0 tlIfParen (by rfl) 0 (by decide)

/-! ## C2 -/

/-- C2: whenever `lex` returns (no lexical error aborts it), concatenating the
text of every token of the stream, in order, reproduces the source exactly;
the span table tiles `[0, len(source))` with no gaps and no overlaps
(`chainFrom`). -/
theorem C2_coverage (path : String) (src : List Char) (cfg : CompilationConfiguration)
    (tl : TokenList) (h : lex path src cfg = Except.ok tl) :
    (tl.tokens.map fun t => Span.text t.span tl.context).flatten = src ∧
    chainFrom 0 tl.context.spans.raw_spans src.length := by
  obtain ⟨hsrc, hpath, hoff, hlen, hchain, hspan⟩ := lex_ok_spec h
  refine ⟨?_, hchain⟩
  have hmap : (tl.tokens.map fun t => Span.text t.span tl.context) =
      tl.context.spans.raw_spans.map fun rs => substring src rs.range.1 rs.range.2 := by
    apply List.ext_getElem
    · simp [hlen]
    · intro i h1 h2
      simp only [List.getElem_map]
      have hi : i < tl.tokens.length := by simpa using h1
      rw [hspan i hi, Span.text, hsrc, Span.range,
        List.getD_eq_getElem _ _ (by simpa using h2)]
  rw [hmap, chainFrom_flatten src hchain, substring_self]

/-- C2 witness: coverage of lexing `"a b"`. -/
theorem C2_coverage_witness :
    (tlAB.tokens.map fun t => Span.text t.span tlAB.context).flatten = "a b".toList ∧
    chainFrom 0 tlAB.context.spans.raw_spans "a b".toList.length :=
  C2_coverage "f" "a b".toList cfg0 tlAB (by rfl)

/-! ## C3 -/

/-- C3: `Context::span(mark)` appends exactly one `RawSpan` covering
`mark.offset` to the cursor's current offset.  The context.rs implementation
returns the index of the appended record (`len - 1`), which resolves to that
record; the ast.rs copy of `Context::span` instead returns `raw_spans.len()`
taken AFTER the push — on a fresh context the first span it returns is
`Span(1)` while the record sits at index 0, so resolving the returned span
reads one past the end of the table (an out-of-bounds panic in Rust). -/
theorem C3_span_append :
    (∀ ctx : Context, ∀ start : Mark,
      (ctx.span start).1.spans.raw_spans =
        ctx.spans.raw_spans ++
          [⟨(start.offset, ctx.spans.cursor.offset), start.line, start.col⟩] ∧
      (ctx.span start).2 = ctx.spans.raw_spans.length ∧
      Span.range (ctx.span start).2 (ctx.span start).1 =
        (start.offset, ctx.spans.cursor.offset)) ∧
    (astSpan (Context.new "main.b" "x".toList) (Context.new "main.b" "x".toList).mark).2 = 1 ∧
    (astSpan (Context.new "main.b" "x".toList)
        (Context.new "main.b" "x".toList).mark).1.spans.raw_spans.length = 1 := by
  refine ⟨?_, by decide, by decide⟩
  intro ctx start
  refine ⟨by rw [span_eval], by rw [span_eval], ?_⟩
  rw [span_eval, Span.range]
  simp only []
  rw [List.getD_eq_getElem _ _ (by simp)]
  simp

/-! ## C5 -/

/-- C5: maximal munch for multi-character punctuators, at any position where
both a multi-character punctuator and its single-character prefix could match
(i.e. the unread input starts with the two-character spelling): each of
`++`, `--`, `==`, `!=`, `<=`, `<<`, `>=`, `>>` wins over its single-character
prefix, for every remainder of the input.  Concretely, `"<="` lexes as the
single token `LessThanEquals` (never `LessThan` then `Equals`); `"a<<b"` as
`Identifier, LessThanLessThan, Identifier`; `"x++ +y"` as
`Identifier, PlusPlus, Whitespace, Plus, Identifier`. -/
theorem C5_maximal_munch :
    (∀ rest : List Char, nextToken ('+' :: '+' :: rest) =
      some (TokenName.PlusPlus, 2)) ∧
    (∀ rest : List Char, nextToken ('-' :: '-' :: rest) =
      some (TokenName.MinusMinus, 2)) ∧
    (∀ rest : List Char, nextToken ('=' :: '=' :: rest) =
      some (TokenName.EqualsEquals, 2)) ∧
    (∀ rest : List Char, nextToken ('!' :: '=' :: rest) =
      some (TokenName.ExclamationEquals, 2)) ∧
    (∀ rest : List Char, nextToken ('<' :: '=' :: rest) =
      some (TokenName.LessThanEquals, 2)) ∧
    (∀ rest : List Char, nextToken ('<' :: '<' :: rest) =
      some (TokenName.LessThanLessThan, 2)) ∧
    (∀ rest : List Char, nextToken ('>' :: '=' :: rest) =
      some (TokenName.GreaterThanEquals, 2)) ∧
    (∀ rest : List Char, nextToken ('>' :: '>' :: rest) =
      some (TokenName.GreaterThanGreaterThan, 2)) ∧
    (lex "f" "<=".toList cfg0).toOption.map (fun tl => tl.tokens.map Token.name) =
      some [TokenName.LessThanEquals] ∧
    (lex "f" "a<<b".toList cfg0).toOption.map (fun tl => tl.tokens.map Token.name) =
      some [TokenName.Identifier, TokenName.LessThanLessThan, TokenName.Identifier] ∧
    (lex "f" "a<<b".toList cfg0).toOption.map
        (fun tl => tl.tokens.map fun t => Span.text t.span tl.context) =
      some [['a'], ['<', '<'], ['b']] ∧
    (lex "f" "x++ +y".toList cfg0).toOption.map (fun tl => tl.tokens.map Token.name) =
      some [TokenName.Identifier, TokenName.PlusPlus, TokenName.Whitespace,
        TokenName.Plus, TokenName.Identifier] := by
  refine ⟨?_, ?_, ?_, ?_, ?_, ?_, ?_, ?_, ?_, ?_, ?_, ?_⟩
  · intro rest
    have hcand : candidates ('+' :: '+' :: rest) =
        [⟨TokenName.Plus, 1, 2⟩, ⟨TokenName.PlusPlus, 2, 4⟩] := by
      simp [candidates, rules, literalToks, litRule, identMatch, numberMatch, stringLitMatch,
        litMatch, lineCommentMatch, blockCommentMatch, whitespaceMatch, lineWsMatch,
        errorRegexMatch, isIdentStart, isDigitChar, List.isPrefixOf]
    rw [nextToken, hcand]
    rfl
  · intro rest
    have hcand : candidates ('-' :: '-' :: rest) =
        [⟨TokenName.Minus, 1, 2⟩, ⟨TokenName.MinusMinus, 2, 4⟩] := by
      simp [candidates, rules, literalToks, litRule, identMatch, numberMatch, stringLitMatch,
        litMatch, lineCommentMatch, blockCommentMatch, whitespaceMatch, lineWsMatch,
        errorRegexMatch, isIdentStart, isDigitChar, List.isPrefixOf]
    rw [nextToken, hcand]
    rfl
  · intro rest
    have hcand : candidates ('=' :: '=' :: rest) =
        [⟨TokenName.Equals, 1, 2⟩, ⟨TokenName.EqualsEquals, 2, 4⟩] := by
      simp [candidates, rules, literalToks, litRule, identMatch, numberMatch, stringLitMatch,
        litMatch, lineCommentMatch, blockCommentMatch, whitespaceMatch, lineWsMatch,
        errorRegexMatch, isIdentStart, isDigitChar, List.isPrefixOf]
    rw [nextToken, hcand]
    rfl
  · intro rest
    have hcand : candidates ('!' :: '=' :: rest) =
        [⟨TokenName.Exclamation, 1, 2⟩, ⟨TokenName.ExclamationEquals, 2, 4⟩] := by
      simp [candidates, rules, literalToks, litRule, identMatch, numberMatch, stringLitMatch,
        litMatch, lineCommentMatch, blockCommentMatch, whitespaceMatch, lineWsMatch,
        errorRegexMatch, isIdentStart, isDigitChar, List.isPrefixOf]
    rw [nextToken, hcand]
    rfl
  · intro rest
    have hcand : candidates ('<' :: '=' :: rest) =
        [⟨TokenName.LessThan, 1, 2⟩, ⟨TokenName.LessThanEquals, 2, 4⟩] := by
      simp [candidates, rules, literalToks, litRule, identMatch, numberMatch, stringLitMatch,
        litMatch, lineCommentMatch, blockCommentMatch, whitespaceMatch, lineWsMatch,
        errorRegexMatch, isIdentStart, isDigitChar, List.isPrefixOf]
    rw [nextToken, hcand]
    rfl
  · intro rest
    have hcand : candidates ('<' :: '<' :: rest) =
        [⟨TokenName.LessThan, 1, 2⟩, ⟨TokenName.LessThanLessThan, 2, 4⟩] := by
      simp [candidates, rules, literalToks, litRule, identMatch, numberMatch, stringLitMatch,
        litMatch, lineCommentMatch, blockCommentMatch, whitespaceMatch, lineWsMatch,
        errorRegexMatch, isIdentStart, isDigitChar, List.isPrefixOf]
    rw [nextToken, hcand]
    rfl
  · intro rest
    have hcand : candidates ('>' :: '=' :: rest) =
        [⟨TokenName.GreaterThan, 1, 2⟩, ⟨TokenName.GreaterThanEquals, 2, 4⟩] := by
      simp [candidates, rules, literalToks, litRule, identMatch, numberMatch, stringLitMatch,
        litMatch, lineCommentMatch, blockCommentMatch, whitespaceMatch, lineWsMatch,
        errorRegexMatch, isIdentStart, isDigitChar, List.isPrefixOf]
    rw [nextToken, hcand]
    rfl
  · intro rest
    have hcand : candidates ('>' :: '>' :: rest) =
        [⟨TokenName.GreaterThan, 1, 2⟩, ⟨TokenName.GreaterThanGreaterThan, 2, 4⟩] := by
      simp [candidates, rules, literalToks, litRule, identMatch, numberMatch, stringLitMatch,
        litMatch, lineCommentMatch, blockCommentMatch, whitespaceMatch, lineWsMatch,
        errorRegexMatch, isIdentStart, isDigitChar, List.isPrefixOf]
    rw [nextToken, hcand]
    rfl
  · decide
  · decide
  · decide
  · decide

/-! ## C6 -/

/-- C6: the cursor's line/column bookkeeping is per consumed codepoint (the
Rust loop iterates `.chars()` of the consumed slice): a `'\n'` codepoint
increments the line and resets the column to 0, any other codepoint increments
the column by exactly 1 — also for non-ASCII codepoints, which count as one
column, not one per byte.  On `"a\nb"` the token for `b` has zero-indexed
coordinates `(1, 0)`. -/
theorem C6_newline_tracking :
    (∀ (m : Mark) (c : Char), advanceLineCol m c =
      if c = '\n' then { offset := m.offset, line := m.line + 1, col := 0 }
      else { offset := m.offset, line := m.line, col := m.col + 1 }) ∧
    (lex "f" "a\nb".toList cfg0).toOption.map
        (fun tl => tl.tokens.map fun t => Span.coords t.span tl.context) =
      some [(0, 0), (0, 1), (1, 0)] ∧
    ((Context.new "f" "héllo\nx".toList).advance_cursor 7).spans.cursor =
      ⟨7, 1, 1⟩ := by
  refine ⟨?_, by decide, by decide⟩
  intro m c
  by_cases hc : c = '\n' <;> simp [advanceLineCol, hc]

/-! ## C7 -/

/-- C7: the cursor's offset never decreases: `advance_cursor` adds the
consumed length, `span` leaves the cursor untouched, `next_span` composes the
two; consequently the spans of one successful lex, in creation order, have
non-decreasing start offsets. -/
theorem C7_monotonic_cursor :
    (∀ (ctx : Context) (len : Nat), ctx.offset ≤ (ctx.advance_cursor len).offset) ∧
    (∀ (ctx : Context) (start : Mark), (ctx.span start).1.offset = ctx.offset) ∧
    (∀ (ctx : Context) (len : Nat), ctx.offset ≤ (ctx.next_span len).1.offset) ∧
    (∀ (path : String) (src : List Char) (cfg : CompilationConfiguration) (tl : TokenList),
      lex path src cfg = Except.ok tl →
      tl.context.spans.raw_spans.Pairwise fun a b => a.range.1 ≤ b.range.1) := by
  refine ⟨?_, ?_, ?_, ?_⟩
  · intro ctx len
    simp only [advance_cursor_eval, Context.offset]
    omega
  · intro ctx start
    simp [span_eval, Context.offset]
  · intro ctx len
    simp only [next_span_eval, Context.offset]
    omega
  · intro path src cfg tl h
    obtain ⟨hsrc, hpath, hoff, hlen, hchain, hspan⟩ := lex_ok_spec h
    exact chainFrom_pairwise hchain

/-- C7 witness: monotone span starts for lexing `"x y"`. -/
theorem C7_monotonic_cursor_witness :
    tlXY.context.spans.raw_spans.Pairwise (fun a b => a.range.1 ≤ b.range.1) :=
  C7_monotonic_cursor.2.2.2 "f" "x y".toList cfg0 tlXY (by rfl)

/-! ## C8 -/

/-- C8 counterexample: on input `"a @"` the code aborts with
`"input.b"[1,3] - Error B1-0000 - Unrecognized token…` — the path is
Debug-quoted and the coordinates are bracketed as `[l,c]`, not the
`<path>:(<l>,<c>)` shape the claim states, so the two strings differ. -/
theorem C8_message_counterexample :
    lex "input.b" "a @".toList cfg0 =
      Except.error (lexAbortMessage "input.b" 1 3 ['@']) ∧
    lexAbortMessage "input.b" 1 3 ['@'] ≠
      specLexAbortMessage "input.b" 1 3 "B1-0000 - Unrecognized token" ['@'] := by
  refine ⟨by rfl, by decide⟩

/-- C8 (amended): when the scanner matches an `Error` token, `lex` aborts
immediately with no partial result (`Except.error` carries only the message),
and the message is exactly
`"<path>"[<line+1>,<col+1>] - Error B1-0000 - Unrecognized token` followed by
a newline, a tab, and
`unrecognized input text during scanning/lexing of sequence '<slice>'`, where
line/column are the 1-indexed coordinates of the offending slice.  The second
conjunct pins the concrete rendering on `"a @"`. -/
theorem C8_error_abort :
    (∀ (cfg : CompilationConfiguration) (fuel : Nat) (ctx : Context) (len : Nat),
      nextToken ctx.unread = some (TokenName.Error, len) →
      lexGo cfg (fuel + 1) ctx =
        Except.error
          (lexAbortMessage ctx.path ctx.human_line ctx.human_column (ctx.unread.take len))) ∧
    lex "input.b" "a @".toList cfg0 =
      Except.error
        "\"input.b\"[1,3] - Error B1-0000 - Unrecognized token\n\tunrecognized input text during scanning/lexing of sequence '@'" := by
  refine ⟨?_, by rfl⟩
  intro cfg fuel ctx len h
  simp [lexGo, h]

/-- C8 witness: the abort shape applied to the single-character input `"@"`. -/
theorem C8_error_abort_witness :
    lexGo cfg0 1 (Context.new "p" "@".toList) =
      Except.error (lexAbortMessage "p" 1 1 ['@']) :=
  C8_error_abort.1 cfg0 0 (Context.new "p" "@".toList) 1 (by rfl)

/-! ## C10 -/

/-- C10: every token produced by the `lex` of lib.rs carries an empty span:
the cursor is advanced past the lexeme before the mark is taken, so the
recorded range is `(e, e)` at the offset just past the lexeme and the span's
text is empty — unlike the lex.rs `lex`, whose spans cover the lexeme.  The
final conjunct shows the concrete table for `"ab c"`: `(2,2), (3,3), (4,4)`,
each at the offset just past its lexeme. -/
theorem C10_lib_lex_empty_spans :
    (∀ (path : String) (src : List Char) (cfg : CompilationConfiguration) (tl : TokenList),
      libLex path src cfg = Except.ok tl →
      ∀ t ∈ tl.tokens,
        (Span.range t.span tl.context).1 = (Span.range t.span tl.context).2 ∧
        Span.text t.span tl.context = []) ∧
    (libLex "f" "ab c".toList cfg0).toOption.map
        (fun tl => tl.context.spans.raw_spans.map RawSpan.range) =
      some [(2, 2), (3, 3), (4, 4)] := by
  refine ⟨?_, by rfl⟩
  intro path src cfg tl h t ht
  have hgo := libLex_ok_elim h
  obtain ⟨hsrc, news, hraws, hlen, hempty, hspan⟩ := libLexGo_ok cfg _ _ _ _ hgo
  simp only [Context.new, List.nil_append] at hsrc hraws hspan
  obtain ⟨i, hi, rfl⟩ := List.mem_iff_getElem.mp ht
  have hspan_i : tl.tokens[i].span = i := by simpa using hspan i hi
  have hilen : i < news.length := by rw [hlen]; exact hi
  have hrange : Span.range tl.tokens[i].span tl.context = news[i].range := by
    rw [hspan_i, Span.range, hraws, List.getD_eq_getElem _ _ hilen]
  have heq := hempty _ (List.getElem_mem hilen)
  refine ⟨by rw [hrange]; exact heq, ?_⟩
  rw [Span.text, hrange, heq, substring_empty]

/-- C10 witness: the first token of the lib.rs lex of `"ab"` has an empty
span. -/
theorem C10_lib_lex_empty_spans_witness :
    (Span.range (Token.mk TokenName.Identifier 0).span tlLibAB.context).1 =
      (Span.range (Token.mk TokenName.Identifier 0).span tlLibAB.context).2 ∧
    Span.text (Token.mk TokenName.Identifier 0).span tlLibAB.context = [] :=
  C10_lib_lex_empty_spans.1 "f" "ab".toList cfg0 tlLibAB (by rfl)
    ⟨TokenName.Identifier, 0⟩ (by decide)

/-! ## C4 -/

/-- C4: a keyword spelling immediately followed by an identifier-continuation
character lexes as a single `Identifier` token, never as the keyword plus a
remainder (one general statement per keyword, for every continuation
character and every remainder of the input); concretely, `"ifx"` lexes as the
single token `Identifier` with text `ifx`, and `"if(x)"` as
`If, LeftParen, Identifier, RightParen` with the identifier text `x`. -/
theorem C4_keyword_vs_identifier :
    (∀ (c : Char) (rest : List Char), isIdentCont c = true →
      (nextToken ('i' :: 'f' :: c :: rest)).map Prod.fst = some TokenName.Identifier) ∧
    (∀ (c : Char) (rest : List Char), isIdentCont c = true →
      (nextToken ('a' :: 'u' :: 't' :: 'o' :: c :: rest)).map Prod.fst = some TokenName.Identifier) ∧
    (∀ (c : Char) (rest : List Char), isIdentCont c = true →
      (nextToken ('e' :: 'x' :: 't' :: 'r' :: 'n' :: c :: rest)).map Prod.fst = some TokenName.Identifier) ∧
    (∀ (c : Char) (rest : List Char), isIdentCont c = true →
      (nextToken ('c' :: 'a' :: 's' :: 'e' :: c :: rest)).map Prod.fst = some TokenName.Identifier) ∧
    (∀ (c : Char) (rest : List Char), isIdentCont c = true →
      (nextToken ('w' :: 'h' :: 'i' :: 'l' :: 'e' :: c :: rest)).map Prod.fst = some TokenName.Identifier) ∧
    (∀ (c : Char) (rest : List Char), isIdentCont c = true →
      (nextToken ('s' :: 'w' :: 'i' :: 't' :: 'c' :: 'h' :: c :: rest)).map Prod.fst = some TokenName.Identifier) ∧
    (∀ (c : Char) (rest : List Char), isIdentCont c = true →
      (nextToken ('g' :: 'o' :: 't' :: 'o' :: c :: rest)).map Prod.fst = some TokenName.Identifier) ∧
    (∀ (c : Char) (rest : List Char), isIdentCont c = true →
      (nextToken ('r' :: 'e' :: 't' :: 'u' :: 'r' :: 'n' :: c :: rest)).map Prod.fst = some TokenName.Identifier) ∧
    (lex "f" "ifx".toList cfg0).toOption.map (fun tl => tl.tokens.map Token.name) =
      some [TokenName.Identifier] ∧
    (lex "f" "ifx".toList cfg0).toOption.map
        (fun tl => tl.tokens.map fun t => Span.text t.span tl.context) =
      some [['i', 'f', 'x']] ∧
    (lex "f" "if(x)".toList cfg0).toOption.map (fun tl => tl.tokens.map Token.name) =
      some [TokenName.If, TokenName.LeftParen, TokenName.Identifier, TokenName.RightParen] ∧
    (lex "f" "if(x)".toList cfg0).toOption.map
        (fun tl => tl.tokens.map fun t => Span.text t.span tl.context) =
      some [['i', 'f'], ['('], ['x'], [')']] := by
  refine ⟨?_, ?_, ?_, ?_, ?_, ?_, ?_, ?_, ?_, ?_, ?_, ?_⟩
  · intro c rest hc
    have hcand : candidates ('i' :: 'f' :: c :: rest) =
        [⟨TokenName.Identifier, countWhile isIdentCont rest + 1 + 1 + 1, 1⟩,
         ⟨TokenName.If, 2, 4⟩] := by
      simp [candidates, rules, literalToks, litRule, identMatch, numberMatch, stringLitMatch,
        litMatch, lineCommentMatch, blockCommentMatch, whitespaceMatch, lineWsMatch,
        errorRegexMatch, isIdentStart, isDigitChar, List.isPrefixOf, countWhile, hc,
        (by decide : isIdentCont 'f' = true)]
    rw [nextToken, hcand]
    simp only [pickBest, pickFrom]
    rw [if_neg (by omega)]
    rfl
  · intro c rest hc
    have hcand : candidates ('a' :: 'u' :: 't' :: 'o' :: c :: rest) =
        [⟨TokenName.Identifier, countWhile isIdentCont rest + 1 + 1 + 1 + 1 + 1, 1⟩,
         ⟨TokenName.Auto, 4, 8⟩] := by
      simp [candidates, rules, literalToks, litRule, identMatch, numberMatch, stringLitMatch,
        litMatch, lineCommentMatch, blockCommentMatch, whitespaceMatch, lineWsMatch,
        errorRegexMatch, isIdentStart, isDigitChar, List.isPrefixOf, countWhile, hc,
        (by decide : isIdentCont 'u' = true),
        (by decide : isIdentCont 't' = true),
        (by decide : isIdentCont 'o' = true)]
    rw [nextToken, hcand]
    simp only [pickBest, pickFrom]
    rw [if_neg (by omega)]
    rfl
  · intro c rest hc
    have hcand : candidates ('e' :: 'x' :: 't' :: 'r' :: 'n' :: c :: rest) =
        [⟨TokenName.Identifier, countWhile isIdentCont rest + 1 + 1 + 1 + 1 + 1 + 1, 1⟩,
         ⟨TokenName.Extrn, 5, 10⟩] := by
      simp [candidates, rules, literalToks, litRule, identMatch, numberMatch, stringLitMatch,
        litMatch, lineCommentMatch, blockCommentMatch, whitespaceMatch, lineWsMatch,
        errorRegexMatch, isIdentStart, isDigitChar, List.isPrefixOf, countWhile, hc,
        (by decide : isIdentCont 'x' = true),
        (by decide : isIdentCont 't' = true),
        (by decide : isIdentCont 'r' = true),
        (by decide : isIdentCont 'n' = true)]
    rw [nextToken, hcand]
    simp only [pickBest, pickFrom]
    rw [if_neg (by omega)]
    rfl
  · intro c rest hc
    have hcand : candidates ('c' :: 'a' :: 's' :: 'e' :: c :: rest) =
        [⟨TokenName.Identifier, countWhile isIdentCont rest + 1 + 1 + 1 + 1 + 1, 1⟩,
         ⟨TokenName.Case, 4, 8⟩] := by
      simp [candidates, rules, literalToks, litRule, identMatch, numberMatch, stringLitMatch,
        litMatch, lineCommentMatch, blockCommentMatch, whitespaceMatch, lineWsMatch,
        errorRegexMatch, isIdentStart, isDigitChar, List.isPrefixOf, countWhile, hc,
        (by decide : isIdentCont 'a' = true),
        (by decide : isIdentCont 's' = true),
        (by decide : isIdentCont 'e' = true)]
    rw [nextToken, hcand]
    simp only [pickBest, pickFrom]
    rw [if_neg (by omega)]
    rfl
  · intro c rest hc
    have hcand : candidates ('w' :: 'h' :: 'i' :: 'l' :: 'e' :: c :: rest) =
        [⟨TokenName.Identifier, countWhile isIdentCont rest + 1 + 1 + 1 + 1 + 1 + 1, 1⟩,
         ⟨TokenName.While, 5, 10⟩] := by
      simp [candidates, rules, literalToks, litRule, identMatch, numberMatch, stringLitMatch,
        litMatch, lineCommentMatch, blockCommentMatch, whitespaceMatch, lineWsMatch,
        errorRegexMatch, isIdentStart, isDigitChar, List.isPrefixOf, countWhile, hc,
        (by decide : isIdentCont 'h' = true),
        (by decide : isIdentCont 'i' = true),
        (by decide : isIdentCont 'l' = true),
        (by decide : isIdentCont 'e' = true)]
    rw [nextToken, hcand]
    simp only [pickBest, pickFrom]
    rw [if_neg (by omega)]
    rfl
  · intro c rest hc
    have hcand : candidates ('s' :: 'w' :: 'i' :: 't' :: 'c' :: 'h' :: c :: rest) =
        [⟨TokenName.Identifier, countWhile isIdentCont rest + 1 + 1 + 1 + 1 + 1 + 1 + 1, 1⟩,
         ⟨TokenName.Switch, 6, 12⟩] := by
      simp [candidates, rules, literalToks, litRule, identMatch, numberMatch, stringLitMatch,
        litMatch, lineCommentMatch, blockCommentMatch, whitespaceMatch, lineWsMatch,
        errorRegexMatch, isIdentStart, isDigitChar, List.isPrefixOf, countWhile, hc,
        (by decide : isIdentCont 'w' = true),
        (by decide : isIdentCont 'i' = true),
        (by decide : isIdentCont 't' = true),
        (by decide : isIdentCont 'c' = true),
        (by decide : isIdentCont 'h' = true)]
    rw [nextToken, hcand]
    simp only [pickBest, pickFrom]
    rw [if_neg (by omega)]
    rfl
  · intro c rest hc
    have hcand : candidates ('g' :: 'o' :: 't' :: 'o' :: c :: rest) =
        [⟨TokenName.Identifier, countWhile isIdentCont rest + 1 + 1 + 1 + 1 + 1, 1⟩,
         ⟨TokenName.Goto, 4, 8⟩] := by
      simp [candidates, rules, literalToks, litRule, identMatch, numberMatch, stringLitMatch,
        litMatch, lineCommentMatch, blockCommentMatch, whitespaceMatch, lineWsMatch,
        errorRegexMatch, isIdentStart, isDigitChar, List.isPrefixOf, countWhile, hc,
        (by decide : isIdentCont 'o' = true),
        (by decide : isIdentCont 't' = true)]
    rw [nextToken, hcand]
    simp only [pickBest, pickFrom]
    rw [if_neg (by omega)]
    rfl
  · intro c rest hc
    have hcand : candidates ('r' :: 'e' :: 't' :: 'u' :: 'r' :: 'n' :: c :: rest) =
        [⟨TokenName.Identifier, countWhile isIdentCont rest + 1 + 1 + 1 + 1 + 1 + 1 + 1, 1⟩,
         ⟨TokenName.Return, 6, 12⟩] := by
      simp [candidates, rules, literalToks, litRule, identMatch, numberMatch, stringLitMatch,
        litMatch, lineCommentMatch, blockCommentMatch, whitespaceMatch, lineWsMatch,
        errorRegexMatch, isIdentStart, isDigitChar, List.isPrefixOf, countWhile, hc,
        (by decide : isIdentCont 'e' = true),
        (by decide : isIdentCont 't' = true),
        (by decide : isIdentCont 'u' = true),
        (by decide : isIdentCont 'r' = true),
        (by decide : isIdentCont 'n' = true)]
    rw [nextToken, hcand]
    simp only [pickBest, pickFrom]
    rw [if_neg (by omega)]
    rfl
  · decide
  · decide
  · decide
  · decide

/-- C4 witness: `"if"` followed by the continuation character `x` scans as an
identifier. -/
theorem C4_keyword_vs_identifier_witness :
    (nextToken ('i' :: 'f' :: 'x' :: [])).map Prod.fst = some TokenName.Identifier :=
  C4_keyword_vs_identifier.1 'x' [] (by decide)

/-! ## C9 -/

/-- At an unterminated block comment (a `/*` opener whose remainder contains
no `*/` pair, so `closeLen` finds no closer), only the `ForwardSlash` literal
and the `Error` recovery regex match. -/
theorem candidates_unterm (rest : List Char) (h : closeLen rest = none) :
    candidates ('/' :: '*' :: rest) =
      [⟨TokenName.ForwardSlash, 1, 2⟩,
       ⟨TokenName.Error,
         (noCloseTake rest -
             countWhile (fun d => d = '*') ((rest.take (noCloseTake rest)).reverse)) +
           min (countWhile (fun d => d = '*') ((rest.take (noCloseTake rest)).reverse)) 1 + 2,
         4⟩] := by
  simp [candidates, rules, literalToks, litRule, identMatch, numberMatch, stringLitMatch,
    litMatch, lineCommentMatch, blockCommentMatch, whitespaceMatch, lineWsMatch,
    errorRegexMatch, isIdentStart, isDigitChar, List.isPrefixOf, h]

/-- At an unterminated block comment the `Error` match (length ≥ 2) beats the
`ForwardSlash` literal (length 1) by maximal munch. -/
theorem nextToken_unterm (rest : List Char) (h : closeLen rest = none) :
    nextToken ('/' :: '*' :: rest) =
      some (TokenName.Error,
        (noCloseTake rest -
            countWhile (fun d => d = '*') ((rest.take (noCloseTake rest)).reverse)) +
          min (countWhile (fun d => d = '*') ((rest.take (noCloseTake rest)).reverse)) 1 + 2) := by
  rw [nextToken, candidates_unterm rest h]
  simp only [pickBest, pickFrom]
  rw [if_pos]
  constructor
  omega

/-- C9: an input that is a block comment opened with `/*` and never closed by
`*/` before end of input scans as the `Error` token kind, and `lex` on such an
input aborts with a lexical error (`closeLen rest = none` states that no `*/`
pair occurs after the opener). -/
theorem C9_unterminated_block_comment :
    (∀ rest : List Char, closeLen rest = none →
      (nextToken ('/' :: '*' :: rest)).map Prod.fst = some TokenName.Error) ∧
    (∀ (path : String) (cfg : CompilationConfiguration) (rest : List Char),
      closeLen rest = none →
      ∃ e, lex path ('/' :: '*' :: rest) cfg = Except.error e) := by
  constructor
  · intro rest h
    rw [nextToken_unterm rest h]
    rfl
  · intro path cfg rest h
    unfold lex
    simp only [List.length_cons, lexGo]
    rw [show (Context.new path ('/' :: '*' :: rest)).unread = '/' :: '*' :: rest from by
      simp [Context.new, Context.unread]]
    rw [nextToken_unterm rest h]
    simp

/-- C9 witness: the spec's own scenario `"/* unterminated"`. -/
theorem C9_unterminated_block_comment_witness :
    (nextToken ('/' :: '*' :: " unterminated".toList)).map Prod.fst =
      some TokenName.Error ∧
    ∃ e, lex "f" ('/' :: '*' :: " unterminated".toList) cfg0 = Except.error e :=
  ⟨C9_unterminated_block_comment.1 " unterminated".toList (by decide),
   C9_unterminated_block_comment.2 "f" cfg0 " unterminated".toList (by decide)⟩

end Badc
